import Mathlib

/-!
Verification of a simplified Bitcoin transaction codec.

The development shallowly embeds the data model of the codec and its
`to_bytes` / `from_bytes` pairs: CompactSize (VarInt), Txid, OutPoint,
Script, TransactionInput and BitcoinTransaction, together with the
hex text (de)serialization of Txid.  Bytes are modelled as `Fin 256`
(the exact carrier of the Rust `u8`), machine integers as `Nat` with
explicit range side conditions, and fallible operations return
`Except`.
-/

deriving instance DecidableEq for Except

namespace BtcCodec

/-- A byte, exactly the values of the Rust `u8` type. -/
abbrev Byte := Fin 256

/-- Truncate a natural number to a byte (`as u8`). -/
def byte (n : Nat) : Byte := ⟨n % 256, Nat.mod_lt _ (by omega)⟩

/-- The value of a byte list read as a little-endian integer
(`uNN::from_le_bytes`). -/
def fromLE (l : List Byte) : Nat := l.foldr (fun b acc => b.val + 256 * acc) 0

/-- The `w`-byte little-endian encoding of `v` (`to_le_bytes`). -/
def toLE : Nat → Nat → List Byte
  | 0, _ => []
  | w + 1, v => byte v :: toLE w (v / 256)

/-- The two error kinds of the codec (`BitcoinError`). -/
inductive BitcoinError where
  | InsufficientBytes
  | InvalidFormat
deriving DecidableEq, Repr

/-- Model of `CompactSize { value: u64 }`; the `u64` is a `Nat`
together with the validity bound `value < 2 ^ 64`. -/
structure CompactSize where
  value : Nat
deriving DecidableEq, Repr

def CompactSize.new (value : Nat) : CompactSize := ⟨value⟩

/-- A constructed `CompactSize` is valid when its value fits `u64`. -/
def CompactSize.Valid (s : CompactSize) : Prop := s.value < 2 ^ 64

instance (s : CompactSize) : Decidable s.Valid := by
  unfold CompactSize.Valid; infer_instance

/-- Model of `CompactSize::to_bytes`: minimal-width self-describing encoding. -/
def CompactSize.to_bytes (s : CompactSize) : List Byte :=
  if s.value ≤ 0xFC then [byte s.value]
  else if s.value ≤ 0xFFFF then byte 0xFD :: toLE 2 s.value
  else if s.value ≤ 0xFFFFFFFF then byte 0xFE :: toLE 4 s.value
  else byte 0xFF :: toLE 8 s.value

/-- Model of `CompactSize::from_bytes`: the four-armed match on the first byte.
The final arm corresponds to marker `0xFF` (the match on `u8` is
exhaustive, so a byte that is `> 0xFC` and neither `0xFD` nor `0xFE`
is `0xFF`). -/
def CompactSize.from_bytes : List Byte → Except BitcoinError (CompactSize × Nat)
  | [] => .error .InsufficientBytes
  | b :: rest =>
    if b.val ≤ 0xFC then .ok (CompactSize.new b.val, 1)
    else if b.val = 0xFD then
      if rest.length < 2 then .error .InsufficientBytes
      else .ok (CompactSize.new (fromLE (rest.take 2)), 3)
    else if b.val = 0xFE then
      if rest.length < 4 then .error .InsufficientBytes
      else .ok (CompactSize.new (fromLE (rest.take 4)), 5)
    else
      if rest.length < 8 then .error .InsufficientBytes
      else .ok (CompactSize.new (fromLE (rest.take 8)), 9)

/-- Model of `Txid(pub [u8; 32])`; the fixed array is modelled as a
byte list with the validity condition that its length is 32. -/
structure Txid where
  bytes : List Byte
deriving DecidableEq, Repr

def Txid.Valid (t : Txid) : Prop := t.bytes.length = 32

instance (t : Txid) : Decidable t.Valid := by
  unfold Txid.Valid; infer_instance

/-- Model of `OutPoint { txid: Txid, vout: u32 }`. -/
structure OutPoint where
  txid : Txid
  vout : Nat
deriving DecidableEq, Repr

def OutPoint.new (txid : List Byte) (vout : Nat) : OutPoint := ⟨⟨txid⟩, vout⟩

def OutPoint.Valid (p : OutPoint) : Prop := p.txid.Valid ∧ p.vout < 2 ^ 32

instance (p : OutPoint) : Decidable p.Valid := by
  unfold OutPoint.Valid; infer_instance

/-- Model of `OutPoint::to_bytes`: 32 raw txid bytes then the vout as 4 LE bytes. -/
def OutPoint.to_bytes (p : OutPoint) : List Byte :=
  p.txid.bytes ++ toLE 4 p.vout

/-- Model of `OutPoint::from_bytes`: requires 36 bytes, reads txid then LE vout. -/
def OutPoint.from_bytes (bytes : List Byte) : Except BitcoinError (OutPoint × Nat) :=
  if bytes.length < 36 then .error .InsufficientBytes
  else .ok (OutPoint.new (bytes.take 32) (fromLE ((bytes.drop 32).take 4)), 36)

/-- Model of `Script { bytes: Vec<u8> }`. -/
structure Script where
  bytes : List Byte
deriving DecidableEq, Repr

def Script.new (bytes : List Byte) : Script := ⟨bytes⟩

/-- A `Vec<u8>` length always fits `u64`; the model records that bound. -/
def Script.Valid (s : Script) : Prop := s.bytes.length < 2 ^ 64

instance (s : Script) : Decidable s.Valid := by
  unfold Script.Valid; infer_instance

/-- Model of `Script::to_bytes`: CompactSize length prefix then the raw bytes. -/
def Script.to_bytes (s : Script) : List Byte :=
  (CompactSize.new s.bytes.length).to_bytes ++ s.bytes

/-- Model of `Script::from_bytes` with ideal (non-overflowing) arithmetic for the
`size_len + script_len` bound check. -/
def Script.from_bytes (bytes : List Byte) : Except BitcoinError (Script × Nat) :=
  match CompactSize.from_bytes bytes with
  | .error e => .error e
  | .ok (compact_size, size_len) =>
    let script_len := compact_size.value
    if bytes.length < size_len + script_len then .error .InsufficientBytes
    else .ok (Script.new ((bytes.drop size_len).take script_len), size_len + script_len)

/-- Model of `Script::from_bytes` with the 64-bit `usize` arithmetic of the source made
explicit.  `compact_size.value as usize` is the identity (a decoded value
always fits `u64`), but `size_len + script_len` is a wrapping `usize`
addition in release builds, and the subsequent slice
`bytes[size_len..size_len + script_len]` panics when the wrapped end is
smaller than `size_len` (in debug builds the addition itself panics on
overflow).  `none` models a panic; `some r` matches the returned result. -/
def Script.from_bytes_impl (bytes : List Byte) : Option (Except BitcoinError (Script × Nat)) :=
  match CompactSize.from_bytes bytes with
  | .error e => some (.error e)
  | .ok (compact_size, size_len) =>
    let script_len := compact_size.value
    let bound := (size_len + script_len) % 2 ^ 64
    if bytes.length < bound then some (.error .InsufficientBytes)
    else if size_len ≤ bound then
      some (.ok (Script.new ((bytes.drop size_len).take (bound - size_len)), bound))
    else none

/-- Model of `TransactionInput { previous_output, script_sig, sequence: u32 }`. -/
structure TransactionInput where
  previous_output : OutPoint
  script_sig : Script
  sequence : Nat
deriving DecidableEq, Repr

def TransactionInput.new (previous_output : OutPoint) (script_sig : Script)
    (seq : Nat) : TransactionInput := ⟨previous_output, script_sig, seq⟩

def TransactionInput.Valid (i : TransactionInput) : Prop :=
  i.previous_output.Valid ∧ i.script_sig.Valid ∧ i.sequence < 2 ^ 32

instance (i : TransactionInput) : Decidable i.Valid := by
  unfold TransactionInput.Valid; infer_instance

/-- Model of `TransactionInput::to_bytes`: outpoint ++ script ++ LE sequence. -/
def TransactionInput.to_bytes (i : TransactionInput) : List Byte :=
  i.previous_output.to_bytes ++ i.script_sig.to_bytes ++ toLE 4 i.sequence

/-- Model of `TransactionInput::from_bytes`: outpoint, strict-remainder guard,
script, then 4 sequence bytes. -/
def TransactionInput.from_bytes (bytes : List Byte) :
    Except BitcoinError (TransactionInput × Nat) :=
  match OutPoint.from_bytes bytes with
  | .error e => .error e
  | .ok (outpoint, outpoint_size) =>
    if bytes.length ≤ outpoint_size then .error .InsufficientBytes
    else
      match Script.from_bytes (bytes.drop outpoint_size) with
      | .error e => .error e
      | .ok (script_sig, script_size) =>
        let sequence_offset := outpoint_size + script_size
        if bytes.length < sequence_offset + 4 then .error .InsufficientBytes
        else .ok (TransactionInput.new outpoint script_sig
            (fromLE ((bytes.drop sequence_offset).take 4)), sequence_offset + 4)

/-- Model of `BitcoinTransaction { version: u32, inputs, lock_time: u32 }`. -/
structure BitcoinTransaction where
  version : Nat
  inputs : List TransactionInput
  lock_time : Nat
deriving DecidableEq, Repr

def BitcoinTransaction.new (version : Nat) (inputs : List TransactionInput)
    (lock_time : Nat) : BitcoinTransaction := ⟨version, inputs, lock_time⟩

def BitcoinTransaction.Valid (tx : BitcoinTransaction) : Prop :=
  tx.version < 2 ^ 32 ∧ tx.inputs.length < 2 ^ 64 ∧
    (∀ i ∈ tx.inputs, i.Valid) ∧ tx.lock_time < 2 ^ 32

instance (tx : BitcoinTransaction) : Decidable tx.Valid := by
  unfold BitcoinTransaction.Valid; infer_instance

/-- The `for input in &self.inputs` encoding loop: concatenation of the
encodings of the inputs in list order. -/
def encodeInputs : List TransactionInput → List Byte
  | [] => []
  | i :: is => i.to_bytes ++ encodeInputs is

/-- Model of `BitcoinTransaction::to_bytes`: version LE ++ CompactSize input count
++ each input ++ lock_time LE. -/
def BitcoinTransaction.to_bytes (tx : BitcoinTransaction) : List Byte :=
  toLE 4 tx.version ++ (CompactSize.new tx.inputs.length).to_bytes ++
    encodeInputs tx.inputs ++ toLE 4 tx.lock_time

/-- The `for _ in 0..input_count.value` decoding loop: before each
iteration fail if `offset >= bytes.len()`, then decode one input at
`offset` and advance. -/
def readInputs (bytes : List Byte) : Nat → Nat → Except BitcoinError (List TransactionInput × Nat)
  | 0, offset => .ok ([], offset)
  | n + 1, offset =>
    if bytes.length ≤ offset then .error .InsufficientBytes
    else
      match TransactionInput.from_bytes (bytes.drop offset) with
      | .error e => .error e
      | .ok (input, input_size) =>
        match readInputs bytes n (offset + input_size) with
        | .error e => .error e
        | .ok (inputs, final) => .ok (input :: inputs, final)

/-- Model of `BitcoinTransaction::from_bytes`: version, input count, count many
inputs, lock time; returns the final offset. -/
def BitcoinTransaction.from_bytes (bytes : List Byte) :
    Except BitcoinError (BitcoinTransaction × Nat) :=
  if bytes.length < 4 then .error .InsufficientBytes
  else
    match CompactSize.from_bytes (bytes.drop 4) with
    | .error e => .error e
    | .ok (input_count, input_count_size) =>
      match readInputs bytes input_count.value (4 + input_count_size) with
      | .error e => .error e
      | .ok (inputs, final) =>
        if bytes.length < final + 4 then .error .InsufficientBytes
        else .ok (BitcoinTransaction.new (fromLE (bytes.take 4)) inputs
            (fromLE ((bytes.drop final).take 4)), final + 4)

/-- The value of a single hex digit character, accepting both cases
(the per-character table of `hex::decode`). -/
def hexVal : Char → Option Nat
  | '0' => some 0
  | 'a' => some 10
  | 'A' => some 10
  | '1' => some 1
  | 'b' => some 11
  | 'B' => some 11
  | '2' => some 2
  | 'c' => some 12
  | 'C' => some 12
  | '3' => some 3
  | 'd' => some 13
  | 'D' => some 13
  | '4' => some 4
  | 'e' => some 14
  | 'E' => some 14
  | '5' => some 5
  | 'f' => some 15
  | 'F' => some 15
  | '6' => some 6
  | '7' => some 7
  | '8' => some 8
  | '9' => some 9
  | _ => none

/-- The lowercase hex digit character for a value `< 16`
(the digit table of `hex::encode`). -/
def hexDigitChar (n : Nat) : Char :=
  if n < 10 then Char.ofNat (48 + n) else Char.ofNat (87 + n)

/-- Model of `hex::decode`: pairs of hex digits to bytes; fails on odd length or
on any non-hex character. -/
def hexDecode : List Char → Option (List Byte)
  | [] => some []
  | [_] => none
  | c1 :: c2 :: rest =>
    match hexVal c1, hexVal c2, hexDecode rest with
    | some h, some l, some bs => some (byte (16 * h + l) :: bs)
    | _, _, _ => none

/-- Model of `hex::encode`: each byte to two lowercase hex digit characters. -/
def hexEncode : List Byte → List Char
  | [] => []
  | b :: bs => hexDigitChar (b.val / 16) :: hexDigitChar (b.val % 16) :: hexEncode bs

/-- Model of the `Serialize` impl of `Txid`: the lowercase hex string of the 32 bytes. -/
def Txid.serialize (t : Txid) : List Char := hexEncode t.bytes

/-- Model of the `Deserialize` impl of `Txid`: hex-decode the string (failing with the
custom serde error "Invalid hex string"), then require exactly 32 bytes
(failing with "Txid must be exactly 32 bytes"). -/
def Txid.deserialize (s : List Char) : Except String Txid :=
  match hexDecode s with
  | none => .error "Invalid hex string"
  | some bs =>
    if bs.length ≠ 32 then .error "Txid must be exactly 32 bytes"
    else .ok ⟨bs⟩

/-- An example transaction used to witness the round-trip claims. -/
def txW : BitcoinTransaction :=
  BitcoinTransaction.new 1
    [TransactionInput.new (OutPoint.new (List.replicate 32 (byte 7)) 5)
      (Script.new [byte 0xAB, byte 0xCD]) 0xFFFFFFFF]
    0

/-! ## Little-endian lemmas -/

theorem toLE_length (w v : Nat) : (toLE w v).length = w := by
  induction w generalizing v with
  | zero => rfl
  | succ w ih => simp [toLE, ih]

theorem fromLE_cons (b : Byte) (l : List Byte) :
    fromLE (b :: l) = b.val + 256 * fromLE l := rfl

theorem fromLE_toLE (w v : Nat) (h : v < 256 ^ w) : fromLE (toLE w v) = v := by
  induction w generalizing v with
  | zero =>
    have : v = 0 := by simpa using h
    simp [this, toLE, fromLE]
  | succ w ih =>
    have hdiv : v / 256 < 256 ^ w := by
      rw [Nat.div_lt_iff_lt_mul (by omega)]
      calc v < 256 ^ (w + 1) := h
        _ = 256 ^ w * 256 := by rw [Nat.pow_succ]
    rw [toLE, fromLE_cons, ih _ hdiv]
    show v % 256 + 256 * (v / 256) = v
    exact Nat.mod_add_div v 256

theorem byte_val_eq (n : Nat) (h : n < 256) : (byte n).val = n := Nat.mod_eq_of_lt h

/-! ## CompactSize lemmas -/

theorem compactSize_length_eq (s : CompactSize) :
    s.to_bytes.length =
      if s.value ≤ 0xFC then 1 else if s.value ≤ 0xFFFF then 3
      else if s.value ≤ 0xFFFFFFFF then 5 else 9 := by
  unfold CompactSize.to_bytes
  split_ifs <;> simp [toLE_length]

/-- Decoding an encoding followed by arbitrary trailing bytes succeeds
with the original value, consuming exactly the encoding. -/
theorem compactSize_decode_concat (s : CompactSize) (h : s.Valid) (rest : List Byte) :
    CompactSize.from_bytes (s.to_bytes ++ rest) = .ok (s, s.to_bytes.length) := by
  obtain ⟨v⟩ := s
  have hv : v < 2 ^ 64 := h
  by_cases h1 : v ≤ 0xFC
  · have hb : (byte v).val = v := byte_val_eq v (by omega)
    simp [CompactSize.to_bytes, CompactSize.from_bytes, h1, hb, CompactSize.new]
  · by_cases h2 : v ≤ 0xFFFF
    · have hlen : (toLE 2 v).length = 2 := toLE_length 2 v
      simp [CompactSize.to_bytes, CompactSize.from_bytes, h1, h2, CompactSize.new,
        byte_val_eq 0xFD (by omega), List.take_left' hlen, fromLE_toLE 2 v (by omega),
        List.length_append, hlen]
    · by_cases h3 : v ≤ 0xFFFFFFFF
      · have hlen : (toLE 4 v).length = 4 := toLE_length 4 v
        simp [CompactSize.to_bytes, CompactSize.from_bytes, h1, h2, h3, CompactSize.new,
          byte_val_eq 0xFE (by omega), List.take_left' hlen, fromLE_toLE 4 v (by omega),
          List.length_append, hlen]
      · have hlen : (toLE 8 v).length = 8 := toLE_length 8 v
        simp [CompactSize.to_bytes, CompactSize.from_bytes, h1, h2, h3, CompactSize.new,
          byte_val_eq 0xFF (by omega), List.take_left' hlen,
          fromLE_toLE 8 v (by omega), List.length_append, hlen]

/-- The consumed count reported by `CompactSize::from_bytes` never
exceeds the buffer length. -/
theorem compactSize_consumed_le (bytes : List Byte) (s : CompactSize) (n : Nat)
    (h : CompactSize.from_bytes bytes = .ok (s, n)) : n ≤ bytes.length := by
  cases bytes with
  | nil => simp [CompactSize.from_bytes] at h
  | cons b rest =>
    simp only [CompactSize.from_bytes] at h
    split_ifs at h <;> simp_all <;> omega

/-- Stability of `CompactSize::from_bytes` under appending a suffix: a
successful decode is unchanged. -/
theorem compactSize_decode_append (bytes t : List Byte) (s : CompactSize) (n : Nat)
    (h : CompactSize.from_bytes bytes = .ok (s, n)) :
    CompactSize.from_bytes (bytes ++ t) = .ok (s, n) := by
  cases bytes with
  | nil => simp [CompactSize.from_bytes] at h
  | cons b rest =>
    rw [List.cons_append]
    simp only [CompactSize.from_bytes] at h ⊢
    by_cases hb1 : b.val ≤ 252
    · rw [if_pos hb1] at h ⊢; exact h
    · rw [if_neg hb1] at h ⊢
      by_cases hb2 : b.val = 253
      · rw [if_pos hb2] at h ⊢
        by_cases hg : rest.length < 2
        · rw [if_pos hg] at h; exact absurd h (by simp)
        · have h2 : 2 ≤ rest.length := by omega
          rw [if_neg hg] at h
          rw [if_neg (by simp [List.length_append]; omega),
            List.take_append_of_le_length h2]
          exact h
      · rw [if_neg hb2] at h ⊢
        by_cases hb3 : b.val = 254
        · rw [if_pos hb3] at h ⊢
          by_cases hg : rest.length < 4
          · rw [if_pos hg] at h; exact absurd h (by simp)
          · have h4 : 4 ≤ rest.length := by omega
            rw [if_neg hg] at h
            rw [if_neg (by simp [List.length_append]; omega),
              List.take_append_of_le_length h4]
            exact h
        · rw [if_neg hb3] at h ⊢
          by_cases hg : rest.length < 8
          · rw [if_pos hg] at h; exact absurd h (by simp)
          · have h8 : 8 ≤ rest.length := by omega
            rw [if_neg hg] at h
            rw [if_neg (by simp [List.length_append]; omega),
              List.take_append_of_le_length h8]
            exact h

/-! ## OutPoint lemmas -/

theorem outPoint_length_eq (p : OutPoint) (h : p.Valid) :
    p.to_bytes.length = 36 := by
  have h32 : p.txid.bytes.length = 32 := h.1
  simp [OutPoint.to_bytes, toLE_length, h32]

theorem outPoint_decode_concat (p : OutPoint) (h : p.Valid) (rest : List Byte) :
    OutPoint.from_bytes (p.to_bytes ++ rest) = .ok (p, 36) := by
  have h32 : p.txid.bytes.length = 32 := h.1
  have hv : p.vout < 2 ^ 32 := h.2
  have hvout : (toLE 4 p.vout).length = 4 := toLE_length 4 p.vout
  rw [OutPoint.to_bytes, List.append_assoc]
  unfold OutPoint.from_bytes
  rw [if_neg (by simp only [List.length_append, h32, hvout]; omega),
    List.take_left' h32, List.drop_left' h32, List.take_left' hvout,
    fromLE_toLE 4 p.vout (by omega)]
  rfl

/-- Success of `OutPoint::from_bytes` happens exactly on buffers of length at least
36, always consuming 36 bytes. -/
theorem outPoint_consumed_eq (bytes : List Byte) (p : OutPoint) (n : Nat)
    (h : OutPoint.from_bytes bytes = .ok (p, n)) : n = 36 ∧ 36 ≤ bytes.length := by
  unfold OutPoint.from_bytes at h
  split_ifs at h with hlen
  simp only [Except.ok.injEq, Prod.mk.injEq] at h
  exact ⟨h.2.symm, by omega⟩

theorem outPoint_decode_append (bytes t : List Byte) (p : OutPoint) (n : Nat)
    (h : OutPoint.from_bytes bytes = .ok (p, n)) :
    OutPoint.from_bytes (bytes ++ t) = .ok (p, n) := by
  unfold OutPoint.from_bytes at h ⊢
  split_ifs at h with hlen
  simp only [Except.ok.injEq, Prod.mk.injEq] at h
  obtain ⟨hp, hn⟩ := h
  rw [if_neg (by simp only [List.length_append]; omega),
    List.take_append_of_le_length (by omega),
    List.drop_append_of_le_length (by omega),
    List.take_append_of_le_length (by simp only [List.length_drop]; omega)]
  rw [hp, hn]

/-! ## Script lemmas -/

theorem script_length_eq (s : Script) :
    s.to_bytes.length = (CompactSize.new s.bytes.length).to_bytes.length + s.bytes.length := by
  simp [Script.to_bytes]

theorem script_decode_concat (s : Script) (h : s.Valid) (rest : List Byte) :
    Script.from_bytes (s.to_bytes ++ rest) = .ok (s, s.to_bytes.length) := by
  have hlen : s.bytes.length < 2 ^ 64 := h
  have hcs : (CompactSize.new s.bytes.length).Valid := hlen
  have hval : (CompactSize.new s.bytes.length).value = s.bytes.length := rfl
  rw [Script.to_bytes, List.append_assoc]
  unfold Script.from_bytes
  simp only [compactSize_decode_concat _ hcs (s.bytes ++ rest), hval]
  rw [if_neg (by simp only [List.length_append]; omega),
    List.drop_left, List.take_left]
  simp [Script.new, List.length_append]

theorem script_consumed_le (bytes : List Byte) (s : Script) (n : Nat)
    (h : Script.from_bytes bytes = .ok (s, n)) : n ≤ bytes.length := by
  unfold Script.from_bytes at h
  cases hcs : CompactSize.from_bytes bytes with
  | error e => rw [hcs] at h; simp at h
  | ok r =>
    obtain ⟨cs, size_len⟩ := r
    rw [hcs] at h
    simp only at h
    split_ifs at h with hg
    simp only [Except.ok.injEq, Prod.mk.injEq] at h
    obtain ⟨hs, hn⟩ := h
    omega

theorem script_decode_append (bytes t : List Byte) (s : Script) (n : Nat)
    (h : Script.from_bytes bytes = .ok (s, n)) :
    Script.from_bytes (bytes ++ t) = .ok (s, n) := by
  unfold Script.from_bytes at h ⊢
  cases hcs : CompactSize.from_bytes bytes with
  | error e => rw [hcs] at h; simp at h
  | ok r =>
    obtain ⟨cs, size_len⟩ := r
    rw [hcs] at h
    have hsl := compactSize_consumed_le bytes cs size_len hcs
    rw [compactSize_decode_append bytes t cs size_len hcs]
    simp only at h ⊢
    split_ifs at h with hg
    simp only [Except.ok.injEq, Prod.mk.injEq] at h
    obtain ⟨hs, hn⟩ := h
    rw [if_neg (by simp only [List.length_append]; omega),
      List.drop_append_of_le_length (by omega),
      List.take_append_of_le_length (by simp only [List.length_drop]; omega)]
    rw [hs, hn]

/-! ## TransactionInput lemmas -/

theorem compactSize_length_pos (s : CompactSize) : 0 < s.to_bytes.length := by
  unfold CompactSize.to_bytes
  split_ifs <;> simp [toLE_length]

theorem drop_concat_at (a b c : List Byte) (n : Nat) (h : a.length + b.length = n) :
    (a ++ (b ++ c)).drop n = c := by
  subst h
  rw [← List.append_assoc]
  exact List.drop_left' (by simp)

theorem input_length_eq (i : TransactionInput) (h : i.Valid) :
    i.to_bytes.length = 36 + i.script_sig.to_bytes.length + 4 := by
  have hopl : i.previous_output.to_bytes.length = 36 := outPoint_length_eq _ h.1
  simp [TransactionInput.to_bytes, List.length_append, hopl, toLE_length]
  omega

theorem input_length_pos (i : TransactionInput) :
    0 < i.to_bytes.length := by
  simp [TransactionInput.to_bytes, List.length_append, toLE_length]

theorem input_decode_concat (i : TransactionInput) (h : i.Valid)
    (rest : List Byte) :
    TransactionInput.from_bytes (i.to_bytes ++ rest) = .ok (i, i.to_bytes.length) := by
  obtain ⟨hop, hs, hseq⟩ := h
  have hopl : i.previous_output.to_bytes.length = 36 := outPoint_length_eq _ hop
  have hcsp : 0 < (CompactSize.new i.script_sig.bytes.length).to_bytes.length :=
    compactSize_length_pos _
  have hsl : i.script_sig.to_bytes.length =
      (CompactSize.new i.script_sig.bytes.length).to_bytes.length +
        i.script_sig.bytes.length := script_length_eq _
  have hseql : (toLE 4 i.sequence).length = 4 := toLE_length 4 i.sequence
  rw [TransactionInput.to_bytes, List.append_assoc, List.append_assoc]
  unfold TransactionInput.from_bytes
  simp only [outPoint_decode_concat _ hop
    (i.script_sig.to_bytes ++ (toLE 4 i.sequence ++ rest))]
  rw [if_neg (by simp only [List.length_append, hopl, hseql]; omega)]
  rw [List.drop_left' hopl]
  simp only [script_decode_concat _ hs (toLE 4 i.sequence ++ rest)]
  rw [if_neg (by simp only [List.length_append, hopl, hseql]; omega)]
  rw [drop_concat_at _ _ _ _ (by rw [hopl]),
    List.take_left' hseql, fromLE_toLE 4 i.sequence (by omega)]
  simp only [TransactionInput.new, Except.ok.injEq, Prod.mk.injEq]
  exact ⟨trivial, by simp only [List.length_append, hopl, hseql]⟩

theorem input_consumed_le (bytes : List Byte) (i : TransactionInput) (n : Nat)
    (h : TransactionInput.from_bytes bytes = .ok (i, n)) : n ≤ bytes.length := by
  unfold TransactionInput.from_bytes at h
  cases hop : OutPoint.from_bytes bytes with
  | error e => rw [hop] at h; simp at h
  | ok r =>
    obtain ⟨outpoint, os⟩ := r
    rw [hop] at h
    simp only at h
    split_ifs at h with hg1
    cases hs : Script.from_bytes (bytes.drop os) with
    | error e => rw [hs] at h; simp at h
    | ok r2 =>
      obtain ⟨script_sig, m⟩ := r2
      rw [hs] at h
      simp only at h
      split_ifs at h with hg2
      simp only [Except.ok.injEq, Prod.mk.injEq] at h
      obtain ⟨hi, hn⟩ := h
      omega

theorem input_decode_append (bytes t : List Byte) (i : TransactionInput)
    (n : Nat) (h : TransactionInput.from_bytes bytes = .ok (i, n)) :
    TransactionInput.from_bytes (bytes ++ t) = .ok (i, n) := by
  unfold TransactionInput.from_bytes at h ⊢
  cases hop : OutPoint.from_bytes bytes with
  | error e => rw [hop] at h; simp at h
  | ok r =>
    obtain ⟨outpoint, os⟩ := r
    obtain ⟨hos, h36⟩ := outPoint_consumed_eq bytes outpoint os hop
    rw [hop] at h
    rw [outPoint_decode_append bytes t outpoint os hop]
    simp only at h ⊢
    split_ifs at h with hg1
    rw [if_neg (by simp only [List.length_append]; omega)]
    rw [List.drop_append_of_le_length (by omega)]
    cases hs : Script.from_bytes (bytes.drop os) with
    | error e => rw [hs] at h; simp at h
    | ok r2 =>
      obtain ⟨script_sig, m⟩ := r2
      have hm : m ≤ (bytes.drop os).length := script_consumed_le _ _ _ hs
      rw [List.length_drop] at hm
      rw [hs] at h
      rw [script_decode_append _ t _ _ hs]
      simp only at h ⊢
      split_ifs at h with hg2
      simp only [Except.ok.injEq, Prod.mk.injEq] at h
      obtain ⟨hi, hn⟩ := h
      rw [if_neg (by simp only [List.length_append]; omega),
        List.drop_append_of_le_length (by omega),
        List.take_append_of_le_length (by simp only [List.length_drop]; omega)]
      rw [hi, hn]

/-! ## BitcoinTransaction lemmas -/

theorem readInputs_concat (l : List TransactionInput) (hv : ∀ i ∈ l, i.Valid)
    (A rest : List Byte) :
    readInputs (A ++ (encodeInputs l ++ rest)) l.length A.length =
      .ok (l, A.length + (encodeInputs l).length) := by
  induction l generalizing A with
  | nil => simp [readInputs, encodeInputs]
  | cons i is ih =>
    have hvi : i.Valid := hv i (List.mem_cons_self i is)
    have hv' : ∀ j ∈ is, j.Valid := fun j hj => hv j (List.mem_cons_of_mem i hj)
    have hpos := input_length_pos i
    simp only [List.length_cons, readInputs]
    rw [if_neg (by simp only [List.length_append, encodeInputs]; omega)]
    rw [List.drop_left]
    simp only [encodeInputs]
    rw [List.append_assoc]
    simp only [input_decode_concat i hvi (encodeInputs is ++ rest)]
    have hB : A ++ (i.to_bytes ++ (encodeInputs is ++ rest)) =
        (A ++ i.to_bytes) ++ (encodeInputs is ++ rest) := by
      rw [List.append_assoc]
    rw [hB, show A.length + i.to_bytes.length = (A ++ i.to_bytes).length by
      simp [List.length_append]]
    rw [ih hv' (A ++ i.to_bytes)]
    simp only [Except.ok.injEq, Prod.mk.injEq, List.length_append]
    exact ⟨trivial, by omega⟩

theorem readInputs_append (bytes t : List Byte) (n offset : Nat)
    (l : List TransactionInput) (fin : Nat)
    (h : readInputs bytes n offset = .ok (l, fin)) :
    readInputs (bytes ++ t) n offset = .ok (l, fin) := by
  induction n generalizing offset l fin with
  | zero => simpa [readInputs] using h
  | succ k ih =>
    simp only [readInputs] at h ⊢
    split_ifs at h with hg
    rw [if_neg (by simp only [List.length_append]; omega)]
    cases hi : TransactionInput.from_bytes (bytes.drop offset) with
    | error e => rw [hi] at h; simp at h
    | ok r =>
      obtain ⟨input, input_size⟩ := r
      rw [hi] at h
      rw [List.drop_append_of_le_length (by omega),
        input_decode_append _ t _ _ hi]
      simp only at h ⊢
      cases hr : readInputs bytes k (offset + input_size) with
      | error e => rw [hr] at h; simp at h
      | ok r2 =>
        obtain ⟨inputs, fin2⟩ := r2
        rw [hr] at h
        rw [ih (offset + input_size) inputs fin2 hr]
        exact h

theorem transaction_decode_concat (tx : BitcoinTransaction)
    (h : tx.Valid) (rest : List Byte) :
    BitcoinTransaction.from_bytes (tx.to_bytes ++ rest) = .ok (tx, tx.to_bytes.length) := by
  obtain ⟨hver, hcnt, hins, hlock⟩ := h
  have hverl : (toLE 4 tx.version).length = 4 := toLE_length 4 tx.version
  have hlockl : (toLE 4 tx.lock_time).length = 4 := toLE_length 4 tx.lock_time
  have hcsv : (CompactSize.new tx.inputs.length).Valid := hcnt
  have hval : (CompactSize.new tx.inputs.length).value = tx.inputs.length := rfl
  have htbl : tx.to_bytes.length = 4 +
      ((CompactSize.new tx.inputs.length).to_bytes.length +
        ((encodeInputs tx.inputs).length + 4)) := by
    simp [BitcoinTransaction.to_bytes, List.length_append, hverl, hlockl]
  have e1 : tx.to_bytes ++ rest =
      toLE 4 tx.version ++ ((CompactSize.new tx.inputs.length).to_bytes ++
        (encodeInputs tx.inputs ++ (toLE 4 tx.lock_time ++ rest))) := by
    simp [BitcoinTransaction.to_bytes, List.append_assoc]
  rw [e1]
  unfold BitcoinTransaction.from_bytes
  rw [if_neg (by simp only [List.length_append, hverl]; omega)]
  rw [List.take_left' hverl, fromLE_toLE 4 tx.version (by omega),
    List.drop_left' hverl]
  simp only [compactSize_decode_concat _ hcsv
    (encodeInputs tx.inputs ++ (toLE 4 tx.lock_time ++ rest)), hval]
  have e2 : toLE 4 tx.version ++ ((CompactSize.new tx.inputs.length).to_bytes ++
        (encodeInputs tx.inputs ++ (toLE 4 tx.lock_time ++ rest))) =
      (toLE 4 tx.version ++ (CompactSize.new tx.inputs.length).to_bytes) ++
        (encodeInputs tx.inputs ++ (toLE 4 tx.lock_time ++ rest)) := by
    rw [List.append_assoc]
  rw [e2, show 4 + (CompactSize.new tx.inputs.length).to_bytes.length =
      (toLE 4 tx.version ++ (CompactSize.new tx.inputs.length).to_bytes).length by
    simp [List.length_append, hverl]]
  rw [readInputs_concat tx.inputs hins _ (toLE 4 tx.lock_time ++ rest)]
  simp only
  rw [if_neg (by simp only [List.length_append, hverl, hlockl]; omega)]
  rw [drop_concat_at _ _ _ _ rfl, List.take_left' hlockl,
    fromLE_toLE 4 tx.lock_time (by omega)]
  simp only [BitcoinTransaction.new, Except.ok.injEq, Prod.mk.injEq]
  refine ⟨trivial, ?_⟩
  simp only [List.length_append, hverl, htbl]
  omega

theorem transaction_consumed_le (bytes : List Byte) (tx : BitcoinTransaction)
    (n : Nat) (h : BitcoinTransaction.from_bytes bytes = .ok (tx, n)) :
    n ≤ bytes.length := by
  unfold BitcoinTransaction.from_bytes at h
  split_ifs at h with h4
  cases hcs : CompactSize.from_bytes (bytes.drop 4) with
  | error e => rw [hcs] at h; simp at h
  | ok r =>
    obtain ⟨input_count, input_count_size⟩ := r
    rw [hcs] at h
    simp only at h
    cases hread : readInputs bytes input_count.value (4 + input_count_size) with
    | error e => rw [hread] at h; simp at h
    | ok r2 =>
      obtain ⟨inputs, fin⟩ := r2
      rw [hread] at h
      simp only at h
      split_ifs at h with hg
      simp only [Except.ok.injEq, Prod.mk.injEq] at h
      obtain ⟨htx, hn⟩ := h
      omega

theorem transaction_decode_append (bytes t : List Byte)
    (tx : BitcoinTransaction) (n : Nat)
    (h : BitcoinTransaction.from_bytes bytes = .ok (tx, n)) :
    BitcoinTransaction.from_bytes (bytes ++ t) = .ok (tx, n) := by
  unfold BitcoinTransaction.from_bytes at h ⊢
  split_ifs at h with h4
  rw [if_neg (by simp only [List.length_append]; omega)]
  rw [List.take_append_of_le_length (by omega),
    List.drop_append_of_le_length (by omega)]
  cases hcs : CompactSize.from_bytes (bytes.drop 4) with
  | error e => rw [hcs] at h; simp at h
  | ok r =>
    obtain ⟨input_count, input_count_size⟩ := r
    rw [hcs] at h
    rw [compactSize_decode_append _ t _ _ hcs]
    simp only at h ⊢
    cases hread : readInputs bytes input_count.value (4 + input_count_size) with
    | error e => rw [hread] at h; simp at h
    | ok r2 =>
      obtain ⟨inputs, fin⟩ := r2
      rw [hread] at h
      rw [readInputs_append bytes t _ _ _ _ hread]
      simp only at h ⊢
      split_ifs at h with hg
      simp only [Except.ok.injEq, Prod.mk.injEq] at h
      obtain ⟨htx, hn⟩ := h
      rw [if_neg (by simp only [List.length_append]; omega),
        List.drop_append_of_le_length (by omega),
        List.take_append_of_le_length (by simp only [List.length_drop]; omega)]
      rw [htx, hn]

/-! ## Hex text lemmas -/

theorem hexVal_some_lt (c : Char) (n : Nat) (h : hexVal c = some n) : n < 16 := by
  unfold hexVal at h
  split at h <;> first
    | (have hx := Option.some.inj h; omega)
    | exact absurd h (by simp)

theorem hexVal_lower (c : Char) (n : Nat) (h : hexVal c = some n) :
    hexVal c.toLower = some n ∧ hexDigitChar n = c.toLower := by
  unfold hexVal at h
  split at h <;> first
    | (obtain rfl : _ = n := Option.some.inj h; exact ⟨by decide, by decide⟩)
    | exact absurd h (by simp)

theorem hexVal_digit (n : Nat) (h : n < 16) : hexVal (hexDigitChar n) = some n := by
  interval_cases n <;> decide

/-- A successful hex decode forces even input length (twice the byte
count) and every character to be a hex digit. -/
theorem hexDecode_some_spec : ∀ (s : List Char) (bs : List Byte),
    hexDecode s = some bs → s.length = 2 * bs.length ∧ ∀ c ∈ s, (hexVal c).isSome
  | [], bs, h => by
    simp only [hexDecode, Option.some.injEq] at h
    subst h
    simp
  | [c], bs, h => by simp [hexDecode] at h
  | c1 :: c2 :: rest, bs, h => by
    simp only [hexDecode] at h
    cases h1 : hexVal c1 with
    | none => rw [h1] at h; simp at h
    | some v1 =>
      cases h2 : hexVal c2 with
      | none => rw [h1, h2] at h; simp at h
      | some v2 =>
        cases hr : hexDecode rest with
        | none => rw [h1, h2, hr] at h; simp at h
        | some bs' =>
          rw [h1, h2, hr] at h
          simp only [Option.some.injEq] at h
          obtain ⟨hlen, hall⟩ := hexDecode_some_spec rest bs' hr
          subst h
          constructor
          · simp only [List.length_cons]
            omega
          · intro c hc
            simp only [List.mem_cons] at hc
            rcases hc with rfl | rfl | hc
            · simp [h1]
            · simp [h2]
            · exact hall c hc

/-- Even length plus all-hex characters suffice for hex decode. -/
theorem hexDecode_total : ∀ (s : List Char), s.length % 2 = 0 →
    (∀ c ∈ s, (hexVal c).isSome) →
    ∃ bs, hexDecode s = some bs ∧ s.length = 2 * bs.length
  | [], _, _ => ⟨[], by simp [hexDecode]⟩
  | [c], h2, _ => by simp at h2
  | c1 :: c2 :: rest, h2, hall => by
    obtain ⟨v1, h1⟩ := Option.isSome_iff_exists.mp (hall c1 (by simp))
    obtain ⟨v2, hv2⟩ := Option.isSome_iff_exists.mp (hall c2 (by simp))
    have hr2 : rest.length % 2 = 0 := by
      simp only [List.length_cons] at h2
      omega
    have hallr : ∀ c ∈ rest, (hexVal c).isSome := fun c hc => hall c (by simp [hc])
    obtain ⟨bs', hbs', hlen⟩ := hexDecode_total rest hr2 hallr
    refine ⟨byte (16 * v1 + v2) :: bs', by simp [hexDecode, h1, hv2, hbs'], ?_⟩
    simp only [List.length_cons]
    omega

/-- Re-encoding a successfully decoded hex string yields its lowercase
form. -/
theorem hexEncode_of_decode : ∀ (s : List Char) (bs : List Byte),
    hexDecode s = some bs → hexEncode bs = s.map Char.toLower
  | [], bs, h => by
    simp only [hexDecode, Option.some.injEq] at h
    subst h
    simp [hexEncode]
  | [c], bs, h => by simp [hexDecode] at h
  | c1 :: c2 :: rest, bs, h => by
    simp only [hexDecode] at h
    cases h1 : hexVal c1 with
    | none => rw [h1] at h; simp at h
    | some v1 =>
      cases hv2 : hexVal c2 with
      | none => rw [h1, hv2] at h; simp at h
      | some v2 =>
        cases hr : hexDecode rest with
        | none => rw [h1, hv2, hr] at h; simp at h
        | some bs' =>
          rw [h1, hv2, hr] at h
          simp only [Option.some.injEq] at h
          subst h
          have l1 := hexVal_some_lt c1 v1 h1
          have l2 := hexVal_some_lt c2 v2 hv2
          have ih := hexEncode_of_decode rest bs' hr
          simp only [hexEncode, List.map_cons]
          rw [byte_val_eq _ (by omega),
            show (16 * v1 + v2) / 16 = v1 by omega,
            show (16 * v1 + v2) % 16 = v2 by omega,
            (hexVal_lower c1 v1 h1).2, (hexVal_lower c2 v2 hv2).2, ih]

/-- Hex decoding is insensitive to lowercasing the input. -/
theorem hexDecode_map_toLower : ∀ (s : List Char) (bs : List Byte),
    hexDecode s = some bs → hexDecode (s.map Char.toLower) = some bs
  | [], bs, h => by simpa [hexDecode] using h
  | [c], bs, h => by simp [hexDecode] at h
  | c1 :: c2 :: rest, bs, h => by
    simp only [hexDecode] at h
    cases h1 : hexVal c1 with
    | none => rw [h1] at h; simp at h
    | some v1 =>
      cases hv2 : hexVal c2 with
      | none => rw [h1, hv2] at h; simp at h
      | some v2 =>
        cases hr : hexDecode rest with
        | none => rw [h1, hv2, hr] at h; simp at h
        | some bs' =>
          rw [h1, hv2, hr] at h
          simp only [Option.some.injEq] at h
          subst h
          have ih := hexDecode_map_toLower rest bs' hr
          simp [hexDecode, (hexVal_lower c1 v1 h1).1, (hexVal_lower c2 v2 hv2).1, ih]

/-- Hex encoding always decodes back to the original bytes. -/
theorem hexDecode_encode : ∀ (bs : List Byte), hexDecode (hexEncode bs) = some bs
  | [] => by simp [hexEncode, hexDecode]
  | b :: bs => by
    have hb : b.val < 256 := b.isLt
    simp only [hexEncode, hexDecode, hexVal_digit (b.val / 16) (by omega),
      hexVal_digit (b.val % 16) (by omega), hexDecode_encode bs]
    have hv : 16 * (b.val / 16) + b.val % 16 = b.val := by omega
    simp only [Option.some.injEq, List.cons.injEq]
    exact ⟨by rw [hv]; exact Fin.ext (byte_val_eq b.val hb), trivial⟩

/-! ## Claim theorems -/

/-- C1: for every valid constructed value of CompactSize, OutPoint,
Script, TransactionInput and BitcoinTransaction, decoding the bytes
produced by encoding yields the same value together with a consumed
count equal to the length of the encoding. -/
theorem claim_C1_roundtrip :
    (∀ s : CompactSize, s.Valid →
      CompactSize.from_bytes s.to_bytes = .ok (s, s.to_bytes.length)) ∧
    (∀ p : OutPoint, p.Valid →
      OutPoint.from_bytes p.to_bytes = .ok (p, p.to_bytes.length)) ∧
    (∀ sc : Script, sc.Valid →
      Script.from_bytes sc.to_bytes = .ok (sc, sc.to_bytes.length)) ∧
    (∀ i : TransactionInput, i.Valid →
      TransactionInput.from_bytes i.to_bytes = .ok (i, i.to_bytes.length)) ∧
    (∀ tx : BitcoinTransaction, tx.Valid →
      BitcoinTransaction.from_bytes tx.to_bytes = .ok (tx, tx.to_bytes.length)) := by
  refine ⟨?_, ?_, ?_, ?_, ?_⟩
  · intro s h
    have hc := compactSize_decode_concat s h []
    simpa using hc
  · intro p h
    have hc := outPoint_decode_concat p h []
    rw [List.append_nil] at hc
    rw [hc, outPoint_length_eq p h]
  · intro sc h
    have hc := script_decode_concat sc h []
    simpa using hc
  · intro i h
    have hc := input_decode_concat i h []
    simpa using hc
  · intro tx h
    have hc := transaction_decode_concat tx h []
    simpa using hc

/-- C1 witness: the round-trip theorem applied at concrete values of
all five types. -/
theorem claim_C1_roundtrip_witness :
    CompactSize.from_bytes (CompactSize.new 300).to_bytes =
      .ok (CompactSize.new 300, (CompactSize.new 300).to_bytes.length) ∧
    OutPoint.from_bytes (OutPoint.new (List.replicate 32 (byte 7)) 5).to_bytes =
      .ok (OutPoint.new (List.replicate 32 (byte 7)) 5,
        (OutPoint.new (List.replicate 32 (byte 7)) 5).to_bytes.length) ∧
    Script.from_bytes (Script.new [byte 0xAB]).to_bytes =
      .ok (Script.new [byte 0xAB], (Script.new [byte 0xAB]).to_bytes.length) ∧
    TransactionInput.from_bytes
        (TransactionInput.new (OutPoint.new (List.replicate 32 (byte 7)) 5)
          (Script.new [byte 0xAB, byte 0xCD]) 0xFFFFFFFF).to_bytes =
      .ok (TransactionInput.new (OutPoint.new (List.replicate 32 (byte 7)) 5)
          (Script.new [byte 0xAB, byte 0xCD]) 0xFFFFFFFF,
        (TransactionInput.new (OutPoint.new (List.replicate 32 (byte 7)) 5)
          (Script.new [byte 0xAB, byte 0xCD]) 0xFFFFFFFF).to_bytes.length) ∧
    BitcoinTransaction.from_bytes txW.to_bytes = .ok (txW, txW.to_bytes.length) :=
  ⟨claim_C1_roundtrip.1 (CompactSize.new 300) (by decide),
    claim_C1_roundtrip.2.1 (OutPoint.new (List.replicate 32 (byte 7)) 5) (by decide),
    claim_C1_roundtrip.2.2.1 (Script.new [byte 0xAB]) (by decide),
    claim_C1_roundtrip.2.2.2.1 _ (by decide),
    claim_C1_roundtrip.2.2.2.2 txW (by decide)⟩

/-- C2: the claim asserts no decode panics; the implementation of
`Script::from_bytes`, however, computes `size_len + script_len` in
`usize`.  On the 9-byte input `FF FF FF FF FF FF FF FF FF` the decoded
length is `u64::MAX`, the addition overflows (panicking in debug
builds), the wrapped bound `8` passes the length check, and the slice
`bytes[9..8]` panics in release builds.  The usize-faithful model
returns `none` (panic) there, where the claim demands an explicit
error result (which the ideal-arithmetic model indeed produces). -/
theorem claim_C2_overflow_panic :
    Script.from_bytes_impl (List.replicate 9 (byte 0xFF)) = none ∧
    Script.from_bytes (List.replicate 9 (byte 0xFF)) = .error .InsufficientBytes := by
  constructor <;> rfl

/-- C3: the CompactSize boundary table, plus: every valid value is
encoded as a marker form with a little-endian payload, the resulting
length is one of the forms that can hold the value, and it is minimal
among them. -/
theorem claim_C3_varint_table :
    ((CompactSize.new 0).to_bytes = [byte 0x00]) ∧
    ((CompactSize.new 252).to_bytes = [byte 0xFC]) ∧
    ((CompactSize.new 253).to_bytes = [byte 0xFD, byte 0xFD, byte 0x00]) ∧
    ((CompactSize.new 65535).to_bytes = [byte 0xFD, byte 0xFF, byte 0xFF]) ∧
    ((CompactSize.new 65536).to_bytes =
      [byte 0xFE, byte 0x00, byte 0x00, byte 0x01, byte 0x00]) ∧
    ((CompactSize.new 4294967296).to_bytes =
      [byte 0xFF, byte 0x00, byte 0x00, byte 0x00, byte 0x00,
        byte 0x01, byte 0x00, byte 0x00, byte 0x00]) ∧
    (∀ s : CompactSize, s.Valid →
      (s.to_bytes =
        if s.value ≤ 0xFC then [byte s.value]
        else if s.value ≤ 0xFFFF then byte 0xFD :: toLE 2 s.value
        else if s.value ≤ 0xFFFFFFFF then byte 0xFE :: toLE 4 s.value
        else byte 0xFF :: toLE 8 s.value) ∧
      ((s.to_bytes.length = 1 ∧ s.value ≤ 0xFC) ∨
        (s.to_bytes.length = 3 ∧ s.value < 2 ^ 16) ∨
        (s.to_bytes.length = 5 ∧ s.value < 2 ^ 32) ∨
        (s.to_bytes.length = 9 ∧ s.value < 2 ^ 64)) ∧
      (∀ n : Nat,
        ((n = 1 ∧ s.value ≤ 0xFC) ∨ (n = 3 ∧ s.value < 2 ^ 16) ∨
          (n = 5 ∧ s.value < 2 ^ 32) ∨ (n = 9 ∧ s.value < 2 ^ 64)) →
        s.to_bytes.length ≤ n)) := by
  refine ⟨by decide, by decide, by decide, by decide, by decide, by decide, ?_⟩
  intro s h
  have hl := compactSize_length_eq s
  refine ⟨rfl, ?_, ?_⟩
  · by_cases h1 : s.value ≤ 0xFC
    · exact Or.inl ⟨by simp [hl, h1], h1⟩
    · by_cases h2 : s.value ≤ 0xFFFF
      · exact Or.inr (Or.inl ⟨by simp [hl, h1, h2], by omega⟩)
      · by_cases h3 : s.value ≤ 0xFFFFFFFF
        · exact Or.inr (Or.inr (Or.inl ⟨by simp [hl, h1, h2, h3], by omega⟩))
        · exact Or.inr (Or.inr (Or.inr ⟨by simp [hl, h1, h2, h3], h⟩))
  · intro n hn
    rcases hn with ⟨rfl, hn⟩ | ⟨rfl, hn⟩ | ⟨rfl, hn⟩ | ⟨rfl, hn⟩ <;>
      (rw [hl]; split_ifs <;> omega)

/-- C3 witness: the general clause applied at the value 5. -/
theorem claim_C3_witness :
    ((CompactSize.new 5).to_bytes.length = 1 ∧ (5 : Nat) ≤ 0xFC) ∧
    (CompactSize.new 5).to_bytes.length ≤ 3 := by
  have h := claim_C3_varint_table.2.2.2.2.2.2 (CompactSize.new 5) (by decide)
  exact ⟨⟨by decide, by decide⟩, h.2.2 3 (Or.inr (Or.inl ⟨rfl, by decide⟩))⟩

/-- C4: decode accepts non-minimal encodings: behind any of the three
markers with enough trailing bytes it returns the little-endian value
of the fixed-width field, with no minimality check; in particular
`[0xFD, 0x05, 0x00]` decodes to 5 consuming 3 bytes. -/
theorem claim_C4_nonminimal :
    (CompactSize.from_bytes [byte 0xFD, byte 0x05, byte 0x00] =
      .ok (CompactSize.new 5, 3)) ∧
    (∀ rest : List Byte, 2 ≤ rest.length →
      CompactSize.from_bytes (byte 0xFD :: rest) =
        .ok (CompactSize.new (fromLE (rest.take 2)), 3)) ∧
    (∀ rest : List Byte, 4 ≤ rest.length →
      CompactSize.from_bytes (byte 0xFE :: rest) =
        .ok (CompactSize.new (fromLE (rest.take 4)), 5)) ∧
    (∀ rest : List Byte, 8 ≤ rest.length →
      CompactSize.from_bytes (byte 0xFF :: rest) =
        .ok (CompactSize.new (fromLE (rest.take 8)), 9)) := by
  refine ⟨by decide, ?_, ?_, ?_⟩ <;> intro rest h <;>
    simp only [CompactSize.from_bytes] <;>
    rw [if_neg (by decide)]
  · rw [if_pos (by decide), if_neg (by omega)]
  · rw [if_neg (by decide), if_pos (by decide), if_neg (by omega)]
  · rw [if_neg (by decide), if_neg (by decide), if_neg (by omega)]

/-- C4 witness: the marker-0xFD clause applied to a concrete
non-minimal encoding with a trailing byte. -/
theorem claim_C4_witness :
    CompactSize.from_bytes (byte 0xFD :: [byte 5, byte 0, byte 99]) =
      .ok (CompactSize.new (fromLE ([byte 5, byte 0, byte 99].take 2)), 3) :=
  claim_C4_nonminimal.2.1 [byte 5, byte 0, byte 99] (by decide)

/-- C7: on success `BitcoinTransaction::from_bytes` reports a consumed
count bounded by the input length, and a complete valid encoding
followed by trailing bytes decodes to the original value with a
consumed count that is strictly below the buffer length when the
trailing part is nonempty. -/
theorem claim_C7_consumed :
    (∀ (bytes : List Byte) (tx : BitcoinTransaction) (n : Nat),
      BitcoinTransaction.from_bytes bytes = .ok (tx, n) → n ≤ bytes.length) ∧
    (∀ tx : BitcoinTransaction, tx.Valid → ∀ extra : List Byte,
      BitcoinTransaction.from_bytes (tx.to_bytes ++ extra) =
        .ok (tx, tx.to_bytes.length) ∧
      (extra ≠ [] → tx.to_bytes.length < (tx.to_bytes ++ extra).length)) := by
  refine ⟨transaction_consumed_le, ?_⟩
  intro tx h extra
  refine ⟨transaction_decode_concat tx h extra, ?_⟩
  intro hne
  have hpos : 0 < extra.length := List.length_pos.mpr hne
  simp only [List.length_append]
  omega

/-- C7 witness: the trailing-bytes clause applied to a concrete
transaction with one junk byte appended. -/
theorem claim_C7_witness :
    BitcoinTransaction.from_bytes (txW.to_bytes ++ [byte 0]) =
      .ok (txW, txW.to_bytes.length) ∧
    txW.to_bytes.length < (txW.to_bytes ++ [byte 0]).length :=
  ⟨(claim_C7_consumed.2 txW (by decide) [byte 0]).1,
    (claim_C7_consumed.2 txW (by decide) [byte 0]).2 (by simp)⟩

/-- C9: every successful decode result is stable under appending an
arbitrary suffix to the buffer: the decode depends only on the consumed
prefix. -/
theorem claim_C9_extension :
    (∀ (b t : List Byte) (s : CompactSize) (n : Nat),
      CompactSize.from_bytes b = .ok (s, n) →
        CompactSize.from_bytes (b ++ t) = .ok (s, n)) ∧
    (∀ (b t : List Byte) (p : OutPoint) (n : Nat),
      OutPoint.from_bytes b = .ok (p, n) →
        OutPoint.from_bytes (b ++ t) = .ok (p, n)) ∧
    (∀ (b t : List Byte) (sc : Script) (n : Nat),
      Script.from_bytes b = .ok (sc, n) →
        Script.from_bytes (b ++ t) = .ok (sc, n)) ∧
    (∀ (b t : List Byte) (i : TransactionInput) (n : Nat),
      TransactionInput.from_bytes b = .ok (i, n) →
        TransactionInput.from_bytes (b ++ t) = .ok (i, n)) ∧
    (∀ (b t : List Byte) (tx : BitcoinTransaction) (n : Nat),
      BitcoinTransaction.from_bytes b = .ok (tx, n) →
        BitcoinTransaction.from_bytes (b ++ t) = .ok (tx, n)) :=
  ⟨compactSize_decode_append, outPoint_decode_append,
    script_decode_append, input_decode_append,
    transaction_decode_append⟩

/-- C9 witness: the CompactSize clause applied at a concrete buffer and
suffix. -/
theorem claim_C9_witness :
    CompactSize.from_bytes ([byte 7] ++ [byte 9]) = .ok (CompactSize.new 7, 1) :=
  claim_C9_extension.1 [byte 7] [byte 9] (CompactSize.new 7) 1 (by decide)

/-- C5: `CompactSize::from_bytes` fails exactly on buffers shorter than
the marker requires (empty, or marker 0xFD/0xFE/0xFF with fewer than
2/4/8 trailing bytes), and the only error ever returned is
`InsufficientBytes`. -/
theorem claim_C5_error_iff :
    ∀ (bytes : List Byte) (e : BitcoinError),
      CompactSize.from_bytes bytes = .error e ↔
        (e = .InsufficientBytes ∧
          (bytes = [] ∨ ∃ b rest, bytes = b :: rest ∧
            ((b.val = 0xFD ∧ rest.length < 2) ∨ (b.val = 0xFE ∧ rest.length < 4) ∨
              (b.val = 0xFF ∧ rest.length < 8)))) := by
  intro bytes e
  cases bytes with
  | nil =>
    simp only [CompactSize.from_bytes]
    constructor
    · intro h
      exact ⟨(Except.error.inj h).symm, Or.inl trivial⟩
    · rintro ⟨rfl, _⟩
      rfl
  | cons b rest =>
    have hb := b.isLt
    simp only [CompactSize.from_bytes]
    by_cases h1 : b.val ≤ 252
    · rw [if_pos h1]
      constructor
      · intro h
        exact absurd h (by simp)
      · rintro ⟨rfl, hc⟩
        rcases hc with hnil | ⟨b', rest', heq, hc⟩
        · exact absurd hnil (by simp)
        · injection heq with e1 e2
          subst e1
          subst e2
          rcases hc with ⟨hv, hl⟩ | ⟨hv, hl⟩ | ⟨hv, hl⟩ <;> omega
    · rw [if_neg h1]
      by_cases h2 : b.val = 253
      · rw [if_pos h2]
        by_cases hg : rest.length < 2
        · rw [if_pos hg]
          constructor
          · intro h
            exact ⟨(Except.error.inj h).symm, Or.inr ⟨b, rest, rfl, Or.inl ⟨h2, hg⟩⟩⟩
          · rintro ⟨rfl, _⟩
            rfl
        · rw [if_neg hg]
          constructor
          · intro h
            exact absurd h (by simp)
          · rintro ⟨rfl, hc⟩
            rcases hc with hnil | ⟨b', rest', heq, hc⟩
            · exact absurd hnil (by simp)
            · injection heq with e1 e2
              subst e1
              subst e2
              rcases hc with ⟨hv, hl⟩ | ⟨hv, hl⟩ | ⟨hv, hl⟩ <;> omega
      · rw [if_neg h2]
        by_cases h3 : b.val = 254
        · rw [if_pos h3]
          by_cases hg : rest.length < 4
          · rw [if_pos hg]
            constructor
            · intro h
              exact ⟨(Except.error.inj h).symm,
                Or.inr ⟨b, rest, rfl, Or.inr (Or.inl ⟨h3, hg⟩)⟩⟩
            · rintro ⟨rfl, _⟩
              rfl
          · rw [if_neg hg]
            constructor
            · intro h
              exact absurd h (by simp)
            · rintro ⟨rfl, hc⟩
              rcases hc with hnil | ⟨b', rest', heq, hc⟩
              · exact absurd hnil (by simp)
              · injection heq with e1 e2
                subst e1
                subst e2
                rcases hc with ⟨hv, hl⟩ | ⟨hv, hl⟩ | ⟨hv, hl⟩ <;> omega
        · have h4 : b.val = 255 := by omega
          rw [if_neg h3]
          by_cases hg : rest.length < 8
          · rw [if_pos hg]
            constructor
            · intro h
              exact ⟨(Except.error.inj h).symm,
                Or.inr ⟨b, rest, rfl, Or.inr (Or.inr ⟨h4, hg⟩)⟩⟩
            · rintro ⟨rfl, _⟩
              rfl
          · rw [if_neg hg]
            constructor
            · intro h
              exact absurd h (by simp)
            · rintro ⟨rfl, hc⟩
              rcases hc with hnil | ⟨b', rest', heq, hc⟩
              · exact absurd hnil (by simp)
              · injection heq with e1 e2
                subst e1
                subst e2
                rcases hc with ⟨hv, hl⟩ | ⟨hv, hl⟩ | ⟨hv, hl⟩ <;> omega

/-- C5 witness: the characterization applied to the truncated marker
buffer `[0xFD, 0x01]`. -/
theorem claim_C5_witness :
    CompactSize.from_bytes [byte 0xFD, byte 0x01] = .error .InsufficientBytes :=
  (claim_C5_error_iff [byte 0xFD, byte 0x01] .InsufficientBytes).mpr
    ⟨rfl, Or.inr ⟨byte 0xFD, [byte 0x01], rfl, Or.inl ⟨by decide, by decide⟩⟩⟩

/-- C6: `TransactionInput::from_bytes` decodes the OutPoint first and
propagates its failure, fails with `InsufficientBytes` whenever the
buffer length is at most 36 (including exactly at the OutPoint
boundary), then decodes the Script at offset 36 and propagates its
failure, then fails with `InsufficientBytes` when fewer than 4 bytes
remain for the sequence field. -/
theorem claim_C6_input_decode_order :
    ∀ bytes : List Byte,
      (∀ e, OutPoint.from_bytes bytes = .error e →
        TransactionInput.from_bytes bytes = .error e) ∧
      (bytes.length ≤ 36 →
        TransactionInput.from_bytes bytes = .error .InsufficientBytes) ∧
      (36 < bytes.length →
        (∀ e, Script.from_bytes (bytes.drop 36) = .error e →
          TransactionInput.from_bytes bytes = .error e) ∧
        (∀ (sc : Script) (m : Nat),
          Script.from_bytes (bytes.drop 36) = .ok (sc, m) →
          bytes.length < 36 + m + 4 →
          TransactionInput.from_bytes bytes = .error .InsufficientBytes)) := by
  intro bytes
  refine ⟨?_, ?_, ?_⟩
  · intro e he
    unfold TransactionInput.from_bytes
    rw [he]
  · intro h36
    unfold TransactionInput.from_bytes OutPoint.from_bytes
    by_cases h : bytes.length < 36
    · rw [if_pos h]
    · rw [if_neg h]
      simp only
      rw [if_pos h36]
  · intro hlen
    have hop : OutPoint.from_bytes bytes =
        .ok (OutPoint.new (bytes.take 32) (fromLE ((bytes.drop 32).take 4)), 36) := by
      unfold OutPoint.from_bytes
      rw [if_neg (by omega)]
    constructor
    · intro e he
      unfold TransactionInput.from_bytes
      rw [hop]
      simp only
      rw [if_neg (by omega), he]
    · intro sc m hsc hlt
      unfold TransactionInput.from_bytes
      rw [hop]
      simp only
      rw [if_neg (by omega), hsc]
      simp only
      rw [if_pos (by omega)]

/-- C6 witness: the boundary clause applied to a buffer of exactly 36
bytes (the OutPoint decodes, yet the input still fails), plus the
propagation clause at the empty buffer. -/
theorem claim_C6_witness :
    TransactionInput.from_bytes (List.replicate 36 (byte 0)) =
      .error .InsufficientBytes ∧
    TransactionInput.from_bytes ([] : List Byte) = .error .InsufficientBytes :=
  ⟨(claim_C6_input_decode_order (List.replicate 36 (byte 0))).2.1 (by decide),
    (claim_C6_input_decode_order []).1 .InsufficientBytes (by decide)⟩

/-- C8: Txid text parsing succeeds exactly on 64 hex characters;
re-rendering a parsed value produces the lowercase form of the input
(hence the identical string for the canonical lowercase text of any
32-byte value); every failure is one of the two invalid-format
errors. -/
theorem claim_C8_txid_text :
    (∀ t : Txid, t.Valid → Txid.deserialize (Txid.serialize t) = .ok t) ∧
    (∀ s : List Char, (∃ t, Txid.deserialize s = .ok t) ↔
      (s.length = 64 ∧ ∀ c ∈ s, (hexVal c).isSome)) ∧
    (∀ (s : List Char) (t : Txid), Txid.deserialize s = .ok t →
      Txid.serialize t = s.map Char.toLower) ∧
    (∀ (s : List Char) (m : String), Txid.deserialize s = .error m →
      m = "Invalid hex string" ∨ m = "Txid must be exactly 32 bytes") := by
  refine ⟨?_, ?_, ?_, ?_⟩
  · intro t h
    have h32 : t.bytes.length = 32 := h
    unfold Txid.deserialize Txid.serialize
    rw [hexDecode_encode t.bytes]
    simp only
    rw [if_neg (by omega)]
  · intro s
    constructor
    · rintro ⟨t, ht⟩
      unfold Txid.deserialize at ht
      cases hd : hexDecode s with
      | none => rw [hd] at ht; exact absurd ht (by simp)
      | some bs =>
        rw [hd] at ht
        simp only at ht
        by_cases hne : bs.length ≠ 32
        · rw [if_pos hne] at ht
          exact absurd ht (by simp)
        · obtain ⟨hlen, hall⟩ := hexDecode_some_spec s bs hd
          exact ⟨by omega, hall⟩
    · rintro ⟨h64, hall⟩
      obtain ⟨bs, hbs, hlen⟩ := hexDecode_total s (by omega) hall
      refine ⟨⟨bs⟩, ?_⟩
      unfold Txid.deserialize
      rw [hbs]
      simp only
      rw [if_neg (by omega)]
  · intro s t ht
    unfold Txid.deserialize at ht
    cases hd : hexDecode s with
    | none => rw [hd] at ht; exact absurd ht (by simp)
    | some bs =>
      rw [hd] at ht
      simp only at ht
      by_cases hne : bs.length ≠ 32
      · rw [if_pos hne] at ht
        exact absurd ht (by simp)
      · rw [if_neg hne] at ht
        have htb : t = ⟨bs⟩ := (Except.ok.inj ht).symm
        subst htb
        unfold Txid.serialize
        exact hexEncode_of_decode s bs hd
  · intro s m hm
    unfold Txid.deserialize at hm
    cases hd : hexDecode s with
    | none =>
      rw [hd] at hm
      simp only at hm
      exact Or.inl (Except.error.inj hm).symm
    | some bs =>
      rw [hd] at hm
      simp only at hm
      by_cases hne : bs.length ≠ 32
      · rw [if_pos hne] at hm
        exact Or.inr (Except.error.inj hm).symm
      · rw [if_neg hne] at hm
        exact absurd hm (by simp)

/-- C8 witness: the serialize-then-deserialize clause at a concrete
32-byte value. -/
theorem claim_C8_witness :
    Txid.deserialize (Txid.serialize ⟨List.replicate 32 (byte 1)⟩) =
      .ok ⟨List.replicate 32 (byte 1)⟩ :=
  claim_C8_txid_text.1 ⟨List.replicate 32 (byte 1)⟩ (by decide)

/-- C10: Txid text parsing accepts uppercase and mixed-case hex; a
successful parse is preserved by lowercasing the input, re-rendering
always produces the lowercase form, and a concrete all-uppercase
64-character string parses to the expected bytes. -/
theorem claim_C10_case_insensitive :
    (∀ (s : List Char) (t : Txid), Txid.deserialize s = .ok t →
      Txid.deserialize (s.map Char.toLower) = .ok t ∧
      Txid.serialize t = s.map Char.toLower) ∧
    Txid.deserialize (List.replicate 64 'A') =
      .ok ⟨List.replicate 32 (byte 0xAA)⟩ := by
  constructor
  · intro s t ht
    unfold Txid.deserialize at ht
    cases hd : hexDecode s with
    | none => rw [hd] at ht; exact absurd ht (by simp)
    | some bs =>
      rw [hd] at ht
      simp only at ht
      by_cases hne : bs.length ≠ 32
      · rw [if_pos hne] at ht
        exact absurd ht (by simp)
      · rw [if_neg hne] at ht
        have htb : t = ⟨bs⟩ := (Except.ok.inj ht).symm
        subst htb
        constructor
        · unfold Txid.deserialize
          rw [hexDecode_map_toLower s bs hd]
          simp only
          rw [if_neg hne]
        · unfold Txid.serialize
          exact hexEncode_of_decode s bs hd
  · decide

/-- C10 witness: the lowercasing clause applied to the all-uppercase
input. -/
theorem claim_C10_witness :
    Txid.deserialize ((List.replicate 64 'A').map Char.toLower) =
      .ok ⟨List.replicate 32 (byte 0xAA)⟩ ∧
    Txid.serialize ⟨List.replicate 32 (byte 0xAA)⟩ =
      (List.replicate 64 'A').map Char.toLower :=
  claim_C10_case_insensitive.1 (List.replicate 64 'A')
    ⟨List.replicate 32 (byte 0xAA)⟩ (by decide)

end BtcCodec
